import Mathlib

/-
Verification development for the resume-search section-segmentation engine
(`src/data_processing/resume_parser.py`) and the cosine-similarity scorer
(`src/models/matching_scoring.py`).

Modelling conventions:
* similarity scores and the float thresholds (0.65, 0.7, 0.75) are modelled
  as exact rationals `ℚ`;
* the spaCy `nlp`/`doc.similarity` capability is modelled as an abstract
  similarity function `sim : String → String → ℚ` (the line is lowercased by
  the scorer before it is passed, exactly as `nlp(line.lower())` does);
* Python's `str.isalpha` / `str.isupper` / `str.split` / `str.strip` /
  `str.lower` are modelled with the corresponding ASCII character predicates
  and explicit character-list recursions (`pyStrip`, `pyWords`, `pyLower`,
  `splitLines`, `joinLines`);
* file-system and pdfplumber/docx interaction is abstracted to an
  `Except String String` extraction outcome (error = total extraction
  failure, i.e. the `try` body raised before producing any text).
-/

namespace ResumeSearch

/-! ### Kernel-computable embeddings of the Python string primitives

Lean's own `String.trim`/`String.toLower`/`String.split` are implemented with
well-founded recursion on byte positions and do not reduce inside the kernel,
so the Python string operations are embedded directly on character lists. -/

/-- Split a character list at every character satisfying `p`, keeping empty
segments — Python `str.split(sep)` semantics at the character level. -/
def splitChars (p : Char → Bool) : List Char → List (List Char)
  | [] => [[]]
  | c :: rest =>
      if p c then [] :: splitChars p rest
      else
        match splitChars p rest with
        | [] => [[c]]
        | h :: t => (c :: h) :: t

/-- Python `str.strip()`: drop leading and trailing whitespace. -/
def pyStrip (s : String) : String :=
  ⟨(((s.data.dropWhile Char.isWhitespace).reverse.dropWhile Char.isWhitespace).reverse)⟩

/-- Python `str.lower()` (ASCII case folding). -/
def pyLower (s : String) : String :=
  ⟨s.data.map Char.toLower⟩

/-- Python `str.split()` with no argument: maximal whitespace-delimited
words, no empties. -/
def pyWords (s : String) : List String :=
  ((splitChars Char.isWhitespace s.data).map (fun l => String.mk l)).filter
    (fun w => w ≠ "")

/-- Python `text.split('\n')`: every newline produces a boundary, empty
pieces preserved. -/
def splitLines (text : String) : List String :=
  (splitChars (fun c => c = '\n') text.data).map (fun l => String.mk l)

/-- Python `"\n".join(parts)`. -/
def joinLines : List String → String
  | [] => ""
  | [s] => s
  | s :: rest => s ++ "\n" ++ joinLines rest

/-- Embedding of `is_potential_heading(line, max_words=5, uppercase_ratio=0.7)`:
empty after strip → False; at most `max_words` whitespace-delimited words →
True; otherwise True iff the line has at least one alphabetic character and
the ratio of uppercase alphabetic characters to alphabetic characters is at
least the threshold. -/
def is_potential_heading (line : String) (max_words : Nat) (upper_thresh : ℚ) : Bool :=
  let stripped := pyStrip line
  if stripped = "" then false
  else
    let words := pyWords stripped
    if words.length ≤ max_words then true
    else
      let upper_chars := (stripped.data.filter Char.isAlpha).countP Char.isUpper
      let total_alpha := stripped.data.countP Char.isAlpha
      if total_alpha > 0 then
        decide ((upper_chars : ℚ) / (total_alpha : ℚ) ≥ upper_thresh)
      else false

/-- The Heading Heuristic exactly as the spec words it (clause by clause, in
the spec's order): an empty or whitespace-only line is never heading-shaped;
a line with whitespace-delimited word count at most 5 is heading-shaped;
otherwise a line with zero alphabetic characters is not heading-shaped; any
remaining line is heading-shaped iff its uppercase-to-alphabetic ratio is at
least 0.7. -/
def heading_shaped_spec (line : String) : Bool :=
  let stripped := pyStrip line
  if stripped = "" then false
  else if (pyWords stripped).length ≤ 5 then
    true
  else if stripped.data.countP Char.isAlpha = 0 then
    false
  else
    decide ((((stripped.data.filter Char.isAlpha).countP Char.isUpper : ℚ)) /
      (stripped.data.countP Char.isAlpha : ℚ) ≥ mkRat 7 10)

/-- One step of the running-best update used by `get_section_label_with_score`:
`if score > best_score: best_score = score; best_category = category`. -/
def bestStep (a p : String × ℚ) : String × ℚ :=
  if p.2 > a.2 then p else a

/-- Embedding of `get_section_label_with_score(line, nlp, synonyms_map, base_threshold)`.
The nested loops over the vocabulary are the nested folds; the initial best is
`("other", 0.0)`; the final guard forces the category to `"other"` when the
best score is below the base threshold while keeping the score. -/
def get_section_label_with_score (sim : String → String → ℚ) (line : String)
    (syn_map : List (String × List String)) (base : ℚ) : String × ℚ :=
  let line_low := pyLower line
  let best := syn_map.foldl
    (fun acc cs => cs.2.foldl (fun a syn => bestStep a (cs.1, sim line_low syn)) acc)
    ("other", 0)
  if base ≤ best.2 then best else ("other", best.2)

/-- The full (category, score) cross-product of the vocabulary for one line,
in vocabulary iteration order — the list the spec's "maximum over the whole
cross-product" ranges over. -/
def crossPairs (sim : String → String → ℚ) (line : String)
    (syn_map : List (String × List String)) : List (String × ℚ) :=
  syn_map.flatMap (fun cs => cs.2.map (fun syn => (cs.1, sim (pyLower line) syn)))

/-- Running maximum of the scores of `ps` starting from `x`. -/
def maxFrom (x : ℚ) (ps : List (String × ℚ)) : ℚ :=
  ps.foldl (fun m p => max m p.2) x

/-- The Category Scorer as the spec words it: take the maximum score over the
whole cross-product (the fold starts from 0, which coincides with the true
maximum because the Similarity Provider's contract is scores in [0,1], and
gives 0 on an empty cross-product); ties keep the first-seen maximum in
vocabulary iteration order (`find?` returns the first pair attaining the
maximum); when the maximum is below the base threshold 0.65 the category is
forced to `"other"` with the original maximum score preserved. -/
def get_section_label_spec (sim : String → String → ℚ) (line : String)
    (syn_map : List (String × List String)) : String × ℚ :=
  let ps := crossPairs sim line syn_map
  let m := maxFrom 0 ps
  let best := (ps.find? (fun p => decide (p.2 = m))).getD ("other", 0)
  if mkRat 13 20 ≤ m then (best.1, m) else ("other", m)

/-- The vocabulary hardcoded in `extract_sections_spacy`. -/
def synonyms_map : List (String × List String) :=
  [("education",
    ["education", "academic background", "academics", "schooling",
     "educational background", "bachelor", "master", "university",
     "college", "graduate studies"]),
   ("experience",
    ["experience", "work history", "employment",
     "professional experience", "career history"]),
   ("skills",
    ["skills", "competencies", "expertise",
     "technical skills", "areas of expertise"])]

/-- State threaded through the line loop of `extract_sections_spacy`:
`current_section` plus the four lists of `sections_dict`.  `consumed` is a
ghost counter instrumenting how many heading lines were consumed (assigned to
`current_section` without being appended anywhere); it is read by no branch
and exists for the line-accounting invariant. -/
structure SegState where
  current : String
  education : List String
  experience : List String
  skills : List String
  other : List String
  consumed : Nat
deriving Repr, DecidableEq

/-- `sections_dict[current_section].append(line)`.  The final catch-all
branch is unreachable: `current_section` is always one of the four dict keys
(proved below as an invariant). -/
def SegState.appendCurrent (st : SegState) (line : String) : SegState :=
  if st.current = "education" then { st with education := st.education ++ [line] }
  else if st.current = "experience" then { st with experience := st.experience ++ [line] }
  else if st.current = "skills" then { st with skills := st.skills ++ [line] }
  else if st.current = "other" then { st with other := st.other ++ [line] }
  else st

/-- `current_section = "other"` and the four empty lists of `sections_dict`. -/
def initState : SegState :=
  ⟨"other", [], [], [], [], 0⟩

/-- The body of `for line in lines` in `extract_sections_spacy`: if the line
is heading-shaped, classify it; a non-`"other"` prediction either fails the
hysteresis test (`current_section != predicted and best_score < 0.75`) and is
appended as content, or switches `current_section` and is consumed; every
other line is appended to the current section. -/
def stepLine (sim : String → String → ℚ) (st : SegState) (line : String) : SegState :=
  if is_potential_heading line 5 (mkRat 7 10) then
    let p := get_section_label_with_score sim line synonyms_map (mkRat 13 20)
    if p.1 ≠ "other" then
      if st.current ≠ p.1 ∧ p.2 < mkRat 3 4 then st.appendCurrent line
      else { st with current := p.1, consumed := st.consumed + 1 }
    else st.appendCurrent line
  else st.appendCurrent line

/-- The whole line loop of `extract_sections_spacy`, from the initial state. -/
def runLines (sim : String → String → ℚ) (lines : List String) : SegState :=
  lines.foldl (stepLine sim) initState

/-- The returned `sections_dict` after `"\n".join(value).strip()`: one string
per fixed category key. -/
structure SectionMap where
  education : String
  experience : String
  skills : String
  other : String
deriving Repr, DecidableEq

/-- Embedding of `extract_sections_spacy(text, nlp)`: split the text on
newlines, run the section-assigner loop, then join each accumulated list with
newlines and strip it. -/
def extract_sections_spacy (sim : String → String → ℚ) (text : String) : SectionMap :=
  let st := runLines sim (splitLines text)
  ⟨pyStrip (joinLines st.education),
   pyStrip (joinLines st.experience),
   pyStrip (joinLines st.skills),
   pyStrip (joinLines st.other)⟩

/-- Sum of the lengths of the four accumulated section lists. -/
def totalLen (st : SegState) : Nat :=
  st.education.length + st.experience.length + st.skills.length + st.other.length

/-- The four keys of `sections_dict`. -/
def sectionKeys : List String :=
  ["education", "experience", "skills", "other"]

/-- The successive values of `current_section`, including the initial
`"other"`, as the loop walks the given lines. -/
def stateTrace (sim : String → String → ℚ) (lines : List String) : List String :=
  (List.scanl (stepLine sim) initState lines).map SegState.current

/-- Boolean rendering of "the state mutates exactly once per processed line":
every adjacent pair of the trace differs. -/
def changesEveryLine (tr : List String) : Bool :=
  (tr.zip tr.tail).all (fun q => !(q.1 == q.2))

/-- Collapse consecutive equal states into one; "monotonically advances, never
revisiting a category out of order" then says exactly that the collapsed trace
has no duplicates. -/
def dedupRuns : List String → List String
  | [] => []
  | [a] => [a]
  | a :: b :: rest => if a == b then dedupRuns (b :: rest) else a :: dedupRuns (b :: rest)

/-- The deterministic test stub from the spec's scenario: similarity 1 exactly
when the (already lowercased) line equals the synonym, else 0. -/
def simExact : String → String → ℚ :=
  fun a b => if a = b then 1 else 0

/-- A provider giving 0.70 to the pair ("education", "education") and 0 to
everything else — the score between the base and override thresholds used by
the hysteresis-resistance scenario. -/
def simEdu : String → String → ℚ :=
  fun a b => if a = "education" ∧ b = "education" then mkRat 7 10 else 0

/-- A document on which the segmentation state leaves a category and later
returns to it. -/
def revisitDoc : List String :=
  ["EDUCATION", "hello", "EXPERIENCE", "EDUCATION"]

/-- Embedding of `tokenize_text(text)`: split on maximal runs of
non-alphanumeric characters, strip, drop empties. -/
def tokenize_text (text : String) : List String :=
  (((splitChars (fun c => !c.isAlphanum) text.data).map (fun l => String.mk l)).map
    pyStrip).filter (fun t => t ≠ "")

/-- Embedding of `parse_pdf(file_path)`.  The pdfplumber interaction is
abstracted to its outcome: `ok t` when the pages were read (their concatenated
text), `error` when `pdfplumber.open`/reading raised before any text was
accumulated.  The `except` clause prints the error and the function returns
the accumulator, which is the empty string on total failure. -/
def parse_pdf (pdf_read : Except String String) : String :=
  match pdf_read with
  | Except.ok t => t
  | Except.error _ => ""

/-- Embedding of `parse_docx(file_path)`, abstracted the same way as
`parse_pdf`: total failure yields the empty accumulator. -/
def parse_docx (docx_read : Except String String) : String :=
  match docx_read with
  | Except.ok t => t
  | Except.error _ => ""

/-- The dict returned by `parse_resume` (the `file_name` field, a pure
`os.path.basename` of the input path, is abstracted away together with the
path itself; the extension is taken as the input). -/
structure ParseResult where
  file_type : String
  raw_text : String
  tokens : List String
  sections : SectionMap
deriving Repr, DecidableEq

/-- Embedding of `parse_resume(file_path)`: dispatch on the lowercased
extension; unsupported extensions print a message and return `None`;
otherwise tokenize and segment whatever text the extractor produced. -/
def parse_resume (sim : String → String → ℚ) (file_ext : String)
    (pdf_read docx_read : Except String String) : Option ParseResult :=
  let ext := pyLower file_ext
  if ext = ".pdf" then
    let raw_text := parse_pdf pdf_read
    some ⟨"PDF", raw_text, tokenize_text raw_text, extract_sections_spacy sim raw_text⟩
  else if ext = ".docx" then
    let raw_text := parse_docx docx_read
    some ⟨"DOCX", raw_text, tokenize_text raw_text, extract_sections_spacy sim raw_text⟩
  else
    none

/-- `np.dot` on two (equal-length) 1-D vectors, vectors modelled as lists of
reals. -/
noncomputable def dot : List ℝ → List ℝ → ℝ
  | a :: as, b :: bs => a * b + dot as bs
  | _, _ => 0

/-- `np.linalg.norm(v)`: the Euclidean norm. -/
noncomputable def vecNorm (v : List ℝ) : ℝ :=
  Real.sqrt (dot v v)

/-- Embedding of `compute_cosine_similarity(vector_a, vector_b)`: guard on
either norm being zero, otherwise the dot product over the product of
norms. -/
noncomputable def compute_cosine_similarity (a b : List ℝ) : ℝ :=
  if vecNorm a = 0 ∨ vecNorm b = 0 then 0
  else dot a b / (vecNorm a * vecNorm b)

/-! ### Lemmas about the running-best fold of the Category Scorer -/

lemma bestStep_snd (a p : String × ℚ) : (bestStep a p).2 = max a.2 p.2 := by
  unfold bestStep
  split_ifs with h
  · exact (max_eq_right h.le).symm
  · exact (max_eq_left (not_lt.mp h)).symm

lemma maxFrom_cons (x : ℚ) (p : String × ℚ) (ps : List (String × ℚ)) :
    maxFrom x (p :: ps) = maxFrom (max x p.2) ps := rfl

lemma le_maxFrom (x : ℚ) (ps : List (String × ℚ)) : x ≤ maxFrom x ps := by
  induction ps generalizing x with
  | nil => exact le_refl x
  | cons p rest ih =>
      rw [maxFrom_cons]
      exact le_trans (le_max_left x p.2) (ih (max x p.2))

lemma mem_le_maxFrom (x : ℚ) (ps : List (String × ℚ)) (q : String × ℚ)
    (hq : q ∈ ps) : q.2 ≤ maxFrom x ps := by
  induction ps generalizing x with
  | nil => cases hq
  | cons p rest ih =>
      rw [maxFrom_cons]
      rcases List.mem_cons.mp hq with h | h
      · rw [h]
        exact le_trans (le_max_right x p.2) (le_maxFrom (max x p.2) rest)
      · exact ih (max x p.2) h

lemma maxFrom_of_all_le (x : ℚ) (ps : List (String × ℚ))
    (h : ∀ q ∈ ps, q.2 ≤ x) : maxFrom x ps = x := by
  induction ps generalizing x with
  | nil => rfl
  | cons p rest ih =>
      rw [maxFrom_cons, max_eq_left (h p (List.mem_cons_self p rest))]
      exact ih x (fun q hq => h q (List.mem_cons_of_mem p hq))

lemma maxFrom_attained (x : ℚ) (ps : List (String × ℚ)) :
    maxFrom x ps = x ∨ ∃ q ∈ ps, maxFrom x ps = q.2 := by
  induction ps generalizing x with
  | nil => exact Or.inl rfl
  | cons p rest ih =>
      rw [maxFrom_cons]
      rcases ih (max x p.2) with h | ⟨q, hqm, hqe⟩
      · rcases le_total p.2 x with hle | hle
        · exact Or.inl (by rw [h, max_eq_left hle])
        · exact Or.inr ⟨p, List.mem_cons_self p rest, by rw [h, max_eq_right hle]⟩
      · exact Or.inr ⟨q, List.mem_cons_of_mem p hqm, hqe⟩

lemma foldl_bestStep_snd (ps : List (String × ℚ)) (acc : String × ℚ) :
    (ps.foldl bestStep acc).2 = maxFrom acc.2 ps := by
  induction ps generalizing acc with
  | nil => rfl
  | cons p rest ih =>
      rw [List.foldl_cons, ih (bestStep acc p), maxFrom_cons]
      rw [bestStep_snd]

/-- Characterisation of the running-best fold: when no score exceeds the
accumulator's score the accumulator survives; otherwise the result is the
first pair attaining the overall maximum. -/
lemma foldl_bestStep_eq (ps : List (String × ℚ)) (acc : String × ℚ) :
    ps.foldl bestStep acc =
      if ∀ q ∈ ps, q.2 ≤ acc.2 then acc
      else (ps.find? (fun q => decide (q.2 = maxFrom acc.2 ps))).getD acc := by
  induction ps generalizing acc with
  | nil => simp
  | cons p rest ih =>
      rw [List.foldl_cons, ih (bestStep acc p)]
      by_cases hp : acc.2 < p.2
      · have hbp : bestStep acc p = p := by unfold bestStep; exact if_pos hp
        rw [hbp]
        have hnall : ¬ ∀ q ∈ p :: rest, q.2 ≤ acc.2 := fun h =>
          absurd (h p (List.mem_cons_self p rest)) (not_le.mpr hp)
        rw [if_neg hnall]
        have hM : maxFrom acc.2 (p :: rest) = maxFrom p.2 rest := by
          rw [maxFrom_cons, max_eq_right hp.le]
        rw [hM]
        by_cases hall : ∀ q ∈ rest, q.2 ≤ p.2
        · rw [if_pos hall]
          have hMp : maxFrom p.2 rest = p.2 := maxFrom_of_all_le _ _ hall
          have hfind : (p :: rest).find? (fun q => decide (q.2 = maxFrom p.2 rest)) = some p := by
            rw [hMp]
            simp [List.find?_cons]
          rw [hfind]
          rfl
        · rw [if_neg hall]
          push_neg at hall
          obtain ⟨q, hqm, hq⟩ := hall
          have hMgt : p.2 < maxFrom p.2 rest :=
            lt_of_lt_of_le hq (mem_le_maxFrom p.2 rest q hqm)
          have hpne : decide (p.2 = maxFrom p.2 rest) = false :=
            decide_eq_false (ne_of_lt hMgt)
          have hfind : (p :: rest).find? (fun q => decide (q.2 = maxFrom p.2 rest)) =
              rest.find? (fun q => decide (q.2 = maxFrom p.2 rest)) := by
            simp [List.find?_cons, hpne]
          rw [hfind]
          have hex : ∃ r ∈ rest, maxFrom p.2 rest = r.2 := by
            rcases maxFrom_attained p.2 rest with h | h
            · exact absurd h (ne_of_gt hMgt)
            · exact h
          obtain ⟨r, hrm, hre⟩ := hex
          have hsome : (rest.find? (fun q => decide (q.2 = maxFrom p.2 rest))).isSome = true :=
            List.find?_isSome.mpr ⟨r, hrm, decide_eq_true hre.symm⟩
          obtain ⟨r0, hr0⟩ := Option.isSome_iff_exists.mp hsome
          rw [hr0]
          rfl
      · have hple : p.2 ≤ acc.2 := not_lt.mp hp
        have hbp : bestStep acc p = acc := by unfold bestStep; exact if_neg hp
        rw [hbp]
        have hM : maxFrom acc.2 (p :: rest) = maxFrom acc.2 rest := by
          rw [maxFrom_cons, max_eq_left hple]
        rw [hM]
        have hcond : (∀ q ∈ p :: rest, q.2 ≤ acc.2) ↔ (∀ q ∈ rest, q.2 ≤ acc.2) := by
          constructor
          · intro h q hq
            exact h q (List.mem_cons_of_mem p hq)
          · intro h q hq
            rcases List.mem_cons.mp hq with h' | h'
            · rw [h']; exact hple
            · exact h q h'
        by_cases hall : ∀ q ∈ rest, q.2 ≤ acc.2
        · rw [if_pos hall, if_pos (hcond.mpr hall)]
        · rw [if_neg hall, if_neg (fun h => hall (hcond.mp h))]
          have hex : ∃ q ∈ rest, acc.2 < q.2 := by
            push_neg at hall
            obtain ⟨q, hqm, hq⟩ := hall
            exact ⟨q, hqm, hq⟩
          obtain ⟨q, hqm, hq⟩ := hex
          have hMgt : acc.2 < maxFrom acc.2 rest :=
            lt_of_lt_of_le hq (mem_le_maxFrom acc.2 rest q hqm)
          have hpne : decide (p.2 = maxFrom acc.2 rest) = false :=
            decide_eq_false (ne_of_lt (lt_of_le_of_lt hple hMgt))
          simp [List.find?_cons, hpne]

/-- The nested per-category/per-synonym folds of the scorer equal the single
fold over the flattened cross-product. -/
lemma nested_fold_eq_flat (sim : String → String → ℚ) (l : String)
    (vm : List (String × List String)) (acc : String × ℚ) :
    vm.foldl (fun acc cs => cs.2.foldl (fun a syn => bestStep a (cs.1, sim l syn)) acc) acc =
      (vm.flatMap (fun cs => cs.2.map (fun syn => (cs.1, sim l syn)))).foldl bestStep acc := by
  induction vm generalizing acc with
  | nil => rfl
  | cons cs rest ih =>
      rw [List.foldl_cons, List.flatMap_cons, List.foldl_append, ih, List.foldl_map]

/-- The scorer written with the single fold over the flattened cross-product. -/
lemma get_section_label_flat (sim : String → String → ℚ) (line : String)
    (syn_map : List (String × List String)) (base : ℚ) :
    get_section_label_with_score sim line syn_map base =
      if base ≤ ((crossPairs sim line syn_map).foldl bestStep ("other", 0)).2
      then (crossPairs sim line syn_map).foldl bestStep ("other", 0)
      else ("other", ((crossPairs sim line syn_map).foldl bestStep ("other", 0)).2) := by
  simp only [get_section_label_with_score, crossPairs]
  rw [nested_fold_eq_flat]

lemma foldl_bestStep_fst (ps : List (String × ℚ)) (acc : String × ℚ) :
    (ps.foldl bestStep acc).1 = acc.1 ∨ (ps.foldl bestStep acc).1 ∈ ps.map Prod.fst := by
  induction ps generalizing acc with
  | nil => exact Or.inl rfl
  | cons p rest ih =>
      rw [List.foldl_cons]
      rcases ih (bestStep acc p) with h | h
      · rw [h]
        unfold bestStep
        split_ifs
        · exact Or.inr (by simp)
        · exact Or.inl rfl
      · exact Or.inr (by simp only [List.map_cons]; exact List.mem_cons_of_mem _ h)

lemma crossPairs_fst_mem (sim : String → String → ℚ) (line : String)
    (vm : List (String × List String)) (c : String)
    (hc : c ∈ (crossPairs sim line vm).map Prod.fst) : c ∈ vm.map Prod.fst := by
  simp only [crossPairs, List.mem_map, List.mem_flatMap] at hc
  obtain ⟨p, ⟨cs, hcs, hp⟩, hfst⟩ := hc
  obtain ⟨syn, _, hsyn⟩ := hp
  subst hsyn
  rw [← hfst]
  exact List.mem_map.mpr ⟨cs, hcs, rfl⟩

/-- The category returned by the scorer on the hardcoded vocabulary is always
one of the four section keys. -/
lemma scorer_fst_mem (sim : String → String → ℚ) (line : String) :
    (get_section_label_with_score sim line synonyms_map (mkRat 13 20)).1 ∈ sectionKeys := by
  rw [get_section_label_flat]
  split_ifs with h
  · rcases foldl_bestStep_fst (crossPairs sim line synonyms_map) ("other", 0) with h1 | h1
    · rw [h1]
      simp [sectionKeys]
    · have hmem := crossPairs_fst_mem sim line synonyms_map _ h1
      have hkeys : synonyms_map.map Prod.fst = ["education", "experience", "skills"] := rfl
      rw [hkeys] at hmem
      simp only [List.mem_cons, List.not_mem_nil, or_false] at hmem
      rcases hmem with h2 | h2 | h2 <;> (rw [h2]; simp [sectionKeys])
  · simp [sectionKeys]

/-- Claim C4: the Category Scorer returns the first-seen maximum of the
(category, score) cross-product together with the maximum score, except that
a maximum below the base threshold 0.65 forces the category to "other" while
preserving the score — for every provider, line and vocabulary
(`get_section_label_spec` formalises the claim's words). -/
theorem get_section_label_matches_spec (sim : String → String → ℚ) (line : String)
    (syn_map : List (String × List String)) :
    get_section_label_with_score sim line syn_map (mkRat 13 20) =
      get_section_label_spec sim line syn_map := by
  rw [get_section_label_flat]
  simp only [get_section_label_spec]
  generalize crossPairs sim line syn_map = ps
  have hchar : ps.foldl bestStep ("other", (0 : ℚ)) =
      if ∀ q ∈ ps, q.2 ≤ (0 : ℚ) then (("other", (0 : ℚ)) : String × ℚ)
      else (ps.find? (fun q => decide (q.2 = maxFrom 0 ps))).getD ("other", 0) :=
    foldl_bestStep_eq ps ("other", 0)
  have hsnd : (ps.foldl bestStep (("other", (0 : ℚ)) : String × ℚ)).2 = maxFrom 0 ps :=
    foldl_bestStep_snd ps ("other", 0)
  rw [hsnd]
  by_cases hall : ∀ q ∈ ps, q.2 ≤ (0 : ℚ)
  · have hM : maxFrom 0 ps = 0 := maxFrom_of_all_le 0 ps hall
    have hnum : ¬ (mkRat 13 20 ≤ (0 : ℚ)) := by norm_num
    rw [hM, if_neg hnum, if_neg hnum]
  · have hbest : ps.foldl bestStep ("other", 0) =
        (ps.find? (fun q => decide (q.2 = maxFrom 0 ps))).getD ("other", 0) := by
      rw [hchar, if_neg hall]
    push_neg at hall
    obtain ⟨q, hqm, hq⟩ := hall
    have hMpos : (0 : ℚ) < maxFrom 0 ps :=
      lt_of_lt_of_le hq (mem_le_maxFrom 0 ps q hqm)
    have hex : ∃ r ∈ ps, maxFrom 0 ps = r.2 := by
      rcases maxFrom_attained 0 ps with h | h
      · exact absurd h (ne_of_gt hMpos)
      · exact h
    obtain ⟨r, hrm, hre⟩ := hex
    have hsome : (ps.find? (fun q => decide (q.2 = maxFrom 0 ps))).isSome = true :=
      List.find?_isSome.mpr ⟨r, hrm, decide_eq_true hre.symm⟩
    obtain ⟨r0, hr0⟩ := Option.isSome_iff_exists.mp hsome
    have hr02 : r0.2 = maxFrom 0 ps := by
      have h := List.find?_some hr0
      simpa using h
    rw [hbest, hr0]
    simp only [Option.getD_some]
    by_cases hbase : mkRat 13 20 ≤ maxFrom 0 ps
    · rw [if_pos hbase, if_pos hbase, ← hr02]
    · rw [if_neg hbase, if_neg hbase]

/-! ### Lemmas about the Section Assigner step -/

lemma appendCurrent_current (st : SegState) (line : String) :
    (st.appendCurrent line).current = st.current := by
  unfold SegState.appendCurrent
  split_ifs <;> rfl

lemma appendCurrent_consumed (st : SegState) (line : String) :
    (st.appendCurrent line).consumed = st.consumed := by
  unfold SegState.appendCurrent
  split_ifs <;> rfl

lemma appendCurrent_totalLen (st : SegState) (line : String)
    (h : st.current ∈ sectionKeys) :
    totalLen (st.appendCurrent line) = totalLen st + 1 := by
  unfold SegState.appendCurrent
  split_ifs with h1 h2 h3 h4
  · simp [totalLen]
    omega
  · simp [totalLen]
    omega
  · simp [totalLen]
    omega
  · simp [totalLen]
    omega
  · exfalso
    simp only [sectionKeys, List.mem_cons, List.not_mem_nil, or_false] at h
    rcases h with h | h | h | h <;> exact absurd h (by assumption)

/-- `stepLine` with the `let` binding expanded, for case splitting. -/
lemma stepLine_def (sim : String → String → ℚ) (st : SegState) (line : String) :
    stepLine sim st line =
      if is_potential_heading line 5 (mkRat 7 10) then
        if (get_section_label_with_score sim line synonyms_map (mkRat 13 20)).1 ≠ "other" then
          if st.current ≠ (get_section_label_with_score sim line synonyms_map (mkRat 13 20)).1 ∧
              (get_section_label_with_score sim line synonyms_map (mkRat 13 20)).2 < mkRat 3 4 then
            st.appendCurrent line
          else
            { st with
                current := (get_section_label_with_score sim line synonyms_map (mkRat 13 20)).1,
                consumed := st.consumed + 1 }
        else st.appendCurrent line
      else st.appendCurrent line := rfl

set_option maxRecDepth 4000

/-- Per line, `current_section` either survives untouched or is set to the
scorer's non-`"other"` prediction for a heading-shaped line. -/
lemma stepLine_current (sim : String → String → ℚ) (st : SegState) (line : String) :
    (stepLine sim st line).current = st.current ∨
      ((stepLine sim st line).current =
        (get_section_label_with_score sim line synonyms_map (mkRat 13 20)).1 ∧
       (get_section_label_with_score sim line synonyms_map (mkRat 13 20)).1 ≠ "other" ∧
       is_potential_heading line 5 (mkRat 7 10) = true) := by
  rw [stepLine_def]
  split_ifs with h1 h2 h3
  · exact Or.inl (appendCurrent_current st line)
  · exact Or.inr ⟨rfl, h2, h1⟩
  · exact Or.inl (appendCurrent_current st line)
  · exact Or.inl (appendCurrent_current st line)

/-- One step preserves the key invariant and accounts for exactly one line:
either appended to exactly one of the four lists (`totalLen` grows by one) or
consumed (`consumed` grows by one), never both. -/
lemma stepLine_accounting (sim : String → String → ℚ) (st : SegState) (line : String)
    (h : st.current ∈ sectionKeys) :
    totalLen (stepLine sim st line) + (stepLine sim st line).consumed =
        totalLen st + st.consumed + 1 ∧
      (stepLine sim st line).current ∈ sectionKeys := by
  rw [stepLine_def]
  split_ifs with h1 h2 h3
  · constructor
    · rw [appendCurrent_totalLen st line h, appendCurrent_consumed]
      omega
    · rw [appendCurrent_current]
      exact h
  · constructor
    · simp [totalLen]
      omega
    · exact scorer_fst_mem sim line
  · constructor
    · rw [appendCurrent_totalLen st line h, appendCurrent_consumed]
      omega
    · rw [appendCurrent_current]
      exact h
  · constructor
    · rw [appendCurrent_totalLen st line h, appendCurrent_consumed]
      omega
    · rw [appendCurrent_current]
      exact h

lemma foldl_stepLine_accounting (sim : String → String → ℚ) (lines : List String) :
    ∀ st : SegState, st.current ∈ sectionKeys →
      totalLen (lines.foldl (stepLine sim) st) + (lines.foldl (stepLine sim) st).consumed =
        totalLen st + st.consumed + lines.length := by
  induction lines with
  | nil => intro st _; rfl
  | cons line rest ih =>
      intro st hst
      obtain ⟨hsum, hmem⟩ := stepLine_accounting sim st line hst
      rw [List.foldl_cons, ih (stepLine sim st line) hmem, hsum, List.length_cons]
      omega

/-! ### Claim theorems -/

/-- Claim C1: every line of the document (the text split on newlines) is
either appended to exactly one of the four category lists or consumed as a
heading, never both and never more than once: the lengths of the four lists
summed, plus the number of consumed heading lines, equals the number of
lines.  (The per-line exclusivity is `stepLine_accounting`: each step grows
exactly one of the two counts by exactly one.) -/
theorem line_accounting (sim : String → String → ℚ) (text : String) :
    totalLen (runLines sim (splitLines text)) +
      (runLines sim (splitLines text)).consumed = (splitLines text).length := by
  have h := foldl_stepLine_accounting sim (splitLines text) initState (by decide)
  simpa [runLines, initState, totalLen] using h

/-- Claim C2: a heading-shaped line classified into a category different from
the current one, with a score at least the base threshold 0.65 but strictly
below the override threshold 0.75, is appended as content of the current
category and the current category does not change. -/
theorem hysteresis_keeps_current (sim : String → String → ℚ) (st : SegState) (line : String)
    (hh : is_potential_heading line 5 (mkRat 7 10) = true)
    (hdiff : (get_section_label_with_score sim line synonyms_map (mkRat 13 20)).1 ≠ st.current)
    (_hbase : mkRat 13 20 ≤ (get_section_label_with_score sim line synonyms_map (mkRat 13 20)).2)
    (hover : (get_section_label_with_score sim line synonyms_map (mkRat 13 20)).2 < mkRat 3 4) :
    stepLine sim st line = st.appendCurrent line ∧
      (stepLine sim st line).current = st.current := by
  have hstep : stepLine sim st line = st.appendCurrent line := by
    rw [stepLine_def, if_pos hh]
    by_cases hp : (get_section_label_with_score sim line synonyms_map (mkRat 13 20)).1 ≠ "other"
    · rw [if_pos hp, if_pos ⟨Ne.symm hdiff, hover⟩]
    · rw [if_neg hp]
  exact ⟨hstep, by rw [hstep]; exact appendCurrent_current st line⟩

/-- Claim C2, applied: current category "experience", the line "EDUCATION"
scoring 0.70 against "education" stays in "experience" and is appended as
content. -/
theorem hysteresis_keeps_current_witness :
    stepLine simEdu ⟨"experience", [], [], [], [], 0⟩ "EDUCATION" =
        SegState.appendCurrent ⟨"experience", [], [], [], [], 0⟩ "EDUCATION" ∧
      (stepLine simEdu ⟨"experience", [], [], [], [], 0⟩ "EDUCATION").current = "experience" := by
  have h := hysteresis_keeps_current simEdu ⟨"experience", [], [], [], [], 0⟩ "EDUCATION"
    (by decide) (by decide) (by decide) (by decide)
  exact ⟨h.1, h.2⟩

/-- Claim C3: a heading-shaped line classified into a non-"other" category
different from the current one with score at least the override threshold
0.75 switches the current category to the predicted one and is consumed: no
section list changes. -/
theorem confident_switch (sim : String → String → ℚ) (st : SegState) (line : String)
    (hh : is_potential_heading line 5 (mkRat 7 10) = true)
    (hother : (get_section_label_with_score sim line synonyms_map (mkRat 13 20)).1 ≠ "other")
    (_hdiff : (get_section_label_with_score sim line synonyms_map (mkRat 13 20)).1 ≠ st.current)
    (hover : mkRat 3 4 ≤ (get_section_label_with_score sim line synonyms_map (mkRat 13 20)).2) :
    stepLine sim st line =
      { st with
          current := (get_section_label_with_score sim line synonyms_map (mkRat 13 20)).1,
          consumed := st.consumed + 1 } := by
  rw [stepLine_def, if_pos hh, if_pos hother,
    if_neg (fun hc => absurd hc.2 (not_lt.mpr hover))]

/-- Claim C3, applied: from the initial "other" state, the line "EDUCATION"
scoring 1.0 against "education" switches the state to "education" and is
appended nowhere. -/
theorem confident_switch_witness :
    stepLine simExact initState "EDUCATION" = ⟨"education", [], [], [], [], 1⟩ := by
  have h := confident_switch simExact initState "EDUCATION"
    (by decide) (by decide) (by decide) (by decide)
  exact h.trans (by decide)

/-- Claim C5: the five-line scenario with the exact-match provider yields
other = "John Doe", education = "BS Computer Science",
experience = "Engineer at Acme", skills = "". -/
theorem scenario_five_lines :
    extract_sections_spacy simExact
        "John Doe\nEDUCATION\nBS Computer Science\nEXPERIENCE\nEngineer at Acme" =
      ⟨"BS Computer Science", "Engineer at Acme", "", "John Doe"⟩ := by
  decide

/-- Claim C6: the Heading Heuristic with its default thresholds is exactly
the spec's clause-by-clause policy (`heading_shaped_spec`). -/
theorem heading_matches_spec (line : String) :
    is_potential_heading line 5 (mkRat 7 10) = heading_shaped_spec line := by
  simp only [is_potential_heading, heading_shaped_spec]
  split_ifs <;> first | rfl | omega

/-- Claim C7 fails on the code: on the document ["EDUCATION", "hello",
"EXPERIENCE", "EDUCATION"] with the exact-match provider the state trace is
["other", "education", "education", "experience", "education"] — the state
does not mutate on every processed line, and "education" is revisited after
"experience", so the advance is not monotone. -/
theorem seg_state_not_monotone :
    ¬ (changesEveryLine (stateTrace simExact revisitDoc) = true ∧
       (dedupRuns (stateTrace simExact revisitDoc)).Nodup) := by
  decide

/-- Claim C7 (amended): the SegmentationState starts as "other" and mutates
at most once per processed line — each step either keeps the current category
or switches it to the non-"other" category predicted for a heading-shaped
line; it need not change on every line and may revisit categories. -/
theorem seg_state_amended :
    initState.current = "other" ∧
    ∀ (sim : String → String → ℚ) (st : SegState) (line : String),
      (stepLine sim st line).current = st.current ∨
        ((stepLine sim st line).current =
          (get_section_label_with_score sim line synonyms_map (mkRat 13 20)).1 ∧
         (get_section_label_with_score sim line synonyms_map (mkRat 13 20)).1 ≠ "other" ∧
         is_potential_heading line 5 (mkRat 7 10) = true) :=
  ⟨rfl, fun sim st line => stepLine_current sim st line⟩

/-- Claim C8 fails on the code for total extraction failure: when the PDF
reader raises, `parse_pdf` swallows the error and returns empty text, and
`parse_resume` returns a successful result whose raw text is empty — the
empty document is segmented silently instead of an error being surfaced. -/
theorem extraction_failure_not_surfaced :
    (parse_resume simExact ".pdf" (Except.error "read failure") (Except.ok "")).isSome = true ∧
    (parse_resume simExact ".pdf" (Except.error "read failure") (Except.ok "")).map
        ParseResult.raw_text = some "" := by
  exact ⟨rfl, rfl⟩

/-- Claim C8 (amended): on an unsupported extension (lowercased, neither
".pdf" nor ".docx") `parse_resume` returns `none` without segmenting
anything; but on total extraction failure the extractor yields empty text and
`parse_resume` proceeds to tokenize and segment the empty document. -/
theorem parse_resume_amended (sim : String → String → ℚ) (file_ext : String)
    (pdf_read docx_read : Except String String) (e : String) :
    (pyLower file_ext ≠ ".pdf" → pyLower file_ext ≠ ".docx" →
      parse_resume sim file_ext pdf_read docx_read = none) ∧
    parse_resume sim ".pdf" (Except.error e) docx_read =
      some ⟨"PDF", "", tokenize_text "", extract_sections_spacy sim ""⟩ := by
  constructor
  · intro h1 h2
    simp [parse_resume, h1, h2]
  · rfl

/-- Claim C8 (amended), applied at the extension ".txt" and at a failing PDF
read. -/
theorem parse_resume_amended_witness :
    parse_resume simExact ".txt" (Except.ok "x") (Except.ok "y") = none ∧
    parse_resume simExact ".pdf" (Except.error "boom") (Except.ok "y") =
      some ⟨"PDF", "", tokenize_text "", extract_sections_spacy simExact ""⟩ := by
  have h := parse_resume_amended simExact ".txt" (Except.ok "x") (Except.ok "y") "boom"
  exact ⟨h.1 (by decide) (by decide), h.2⟩

/-- Claim C9: a heading whose classification is "other" is appended as
content of the current category with no state change, and consequently a
non-"other" state never becomes "other" again for the rest of the
document. -/
theorem other_heading_keeps_state (sim : String → String → ℚ) (st : SegState)
    (line : String) (lines : List String) :
    (is_potential_heading line 5 (mkRat 7 10) = true →
      (get_section_label_with_score sim line synonyms_map (mkRat 13 20)).1 = "other" →
      stepLine sim st line = st.appendCurrent line) ∧
    (st.current ≠ "other" → (lines.foldl (stepLine sim) st).current ≠ "other") := by
  constructor
  · intro hh hp
    rw [stepLine_def, if_pos hh, if_neg (fun hne => hne hp)]
  · induction lines generalizing st with
    | nil => exact fun h => h
    | cons l rest ih =>
        intro h
        rw [List.foldl_cons]
        apply ih
        rcases stepLine_current sim st l with hc | ⟨hc, hne, _⟩
        · rw [hc]; exact h
        · rw [hc]; exact hne

/-- Claim C9, applied: the heading-shaped line "hello" classifies as "other"
and is appended to the current "experience" section, and a subsequent
"EDUCATION" heading leaves the state non-"other". -/
theorem other_heading_keeps_state_witness :
    stepLine simExact ⟨"experience", [], [], [], [], 0⟩ "hello" =
        SegState.appendCurrent ⟨"experience", [], [], [], [], 0⟩ "hello" ∧
      (["EDUCATION"].foldl (stepLine simExact) ⟨"experience", [], [], [], [], 0⟩).current ≠ "other" := by
  have h := other_heading_keeps_state simExact ⟨"experience", [], [], [], [], 0⟩ "hello" ["EDUCATION"]
  exact ⟨h.1 (by decide) (by decide), h.2 (by decide)⟩

/-- Claim C10: `compute_cosine_similarity` returns exactly 0 whenever either
vector has zero Euclidean norm; otherwise the product of the norms is nonzero
(no division by zero) and the result is the dot product divided by it. -/
theorem cosine_zero_guard (a b : List ℝ) :
    (vecNorm a = 0 ∨ vecNorm b = 0 → compute_cosine_similarity a b = 0) ∧
    (vecNorm a ≠ 0 → vecNorm b ≠ 0 →
      vecNorm a * vecNorm b ≠ 0 ∧
      compute_cosine_similarity a b = dot a b / (vecNorm a * vecNorm b)) := by
  constructor
  · intro h
    unfold compute_cosine_similarity
    rw [if_pos h]
  · intro ha hb
    refine ⟨mul_ne_zero ha hb, ?_⟩
    unfold compute_cosine_similarity
    rw [if_neg (fun h => by rcases h with h | h; exacts [ha h, hb h])]

/-- Claim C10, applied at the zero vector [0] (guard returns 0) and at
[1], [1] (the quotient form). -/
theorem cosine_zero_guard_witness :
    compute_cosine_similarity [(0 : ℝ)] [1] = 0 ∧
    compute_cosine_similarity [(1 : ℝ)] [1] =
      dot [(1 : ℝ)] [1] / (vecNorm [(1 : ℝ)] * vecNorm [1]) := by
  have h0 : vecNorm [(0 : ℝ)] = 0 := by
    simp [vecNorm, dot]
  have h1 : vecNorm [(1 : ℝ)] ≠ 0 := by
    have he : vecNorm [(1 : ℝ)] = 1 := by
      simp [vecNorm, dot]
    rw [he]
    norm_num
  exact ⟨(cosine_zero_guard [0] [1]).1 (Or.inl h0),
    ((cosine_zero_guard [1] [1]).2 h1 h1).2⟩

end ResumeSearch
